import Mathlib

/-!
Verification of the coordination core of `maximum-virtual-product`:
the Graph Builder (`backend/app/services/dag_utils.py`), the Event Bus
(`backend/app/ws/manager.py`), the Sub-task Runner
(`backend/app/agents/research_agent.py`) and the Pipeline Orchestrator
(`backend/app/services/research_service.py`, with the synthesis wrapper in
`backend/app/services/claude_service.py`).

Modelling conventions:
* A connection dict with keys `from_id`/`to_id` becomes the structure `Conn`.
* The Python `set[str]` of artifact ids becomes a `List String` giving the
  set's iteration order explicitly; membership is list membership.
* Python dicts used as total maps (`color`, `in_degree`) become Lean
  functions `String → Nat` / `String → Int`; the code only ever reads them
  at keys it initialised, so a total function with the initialisation value
  as default is observationally identical.
* `in_degree` values are Python ints and can go negative when the input id
  list contains duplicates, so they are modelled as `Int`.
* The recursive DFS of `remove_cycles` and the `while queue` loop of
  `topological_sort_layers` are written with an explicit fuel argument;
  the callers pass enough fuel that the out-of-fuel branch is unreachable
  (proved in the lemmas below), so the fuelled functions compute exactly
  what the Python loops compute.
* The DFS state carries, besides the `color` map and the `back_edges` set of
  the source, a list `finished` recording the order in which nodes are
  coloured BLACK.  It is write-only instrumentation: the value returned by
  `remove_cycles` reads only `backEdges`.
-/

namespace MVP

/-- Edge colours of the three-colour DFS in `dag_utils.remove_cycles`:
`WHITE, GRAY, BLACK = 0, 1, 2`. -/
def WHITE : Nat := 0

/-- GRAY = 1 (in-progress). -/
def GRAY : Nat := 1

/-- BLACK = 2 (done). -/
def BLACK : Nat := 2

/-- A connection dict: `{"from_id": ..., "to_id": ...}`.  The label and
connection-type keys play no role in the Graph Builder and are omitted. -/
structure Conn where
  from_id : String
  to_id : String
deriving DecidableEq, Repr

/-- The adjacency map built by the first loop of `remove_cycles`:
`adj[src]` holds `(dst, i)` for every edge `connections_data[i]` whose two
endpoints are both in `artifact_ids`, in input order. -/
def adjOf (connections_data : List Conn) (artifact_ids : List String) (src : String) :
    List (String × Nat) :=
  ((connections_data.enum.filter fun p =>
      decide (p.2.from_id = src ∧ p.2.from_id ∈ artifact_ids ∧ p.2.to_id ∈ artifact_ids)).map
    fun p => (p.2.to_id, p.1))

/-- The mutable state of the DFS in `remove_cycles`: the `color` dict, the
`back_edges` index set, plus the instrumentation list `finished` (order in
which nodes turn BLACK; never read by the algorithm). -/
structure DfsState where
  color : String → Nat
  backEdges : List Nat
  finished : List String

/-- `color[x] = c`. -/
def setColor (s : DfsState) (x : String) (c : Nat) : DfsState :=
  { s with color := fun y => if y = x then c else s.color y }

/-- `back_edges.add(i)` (each index is scanned once, so list append models
the Python set add). -/
def addBackEdge (s : DfsState) (i : Nat) : DfsState :=
  { s with backEdges := s.backEdges ++ [i] }

/-- The end of `dfs(node)`: `color[node] = BLACK`, recording the completion
order in `finished`. -/
def finishNode (s : DfsState) (x : String) : DfsState :=
  ⟨fun y => if y = x then BLACK else s.color y, s.backEdges, s.finished ++ [x]⟩

/-- The `for neighbor, edge_idx in adj[node]` loop body of `dfs`: a GRAY
neighbour marks a back edge, a WHITE neighbour is visited recursively
(`visit` is the recursive call at the remaining fuel), anything else is
skipped. -/
def dfsScan (visit : String → DfsState → DfsState) :
    List (String × Nat) → DfsState → DfsState
  | [], s => s
  | (v, i) :: rest, s =>
    if s.color v = GRAY then dfsScan visit rest (addBackEdge s i)
    else if s.color v = WHITE then dfsScan visit rest (visit v s)
    else dfsScan visit rest s

/-- The recursive `dfs(node)` of `remove_cycles`, with fuel bounding the
recursion depth.  The callers pass fuel `artifact_ids.length + 1`, which is
never exhausted (each nested visit turns a WHITE node GRAY first). -/
def dfsVisit (adj : String → List (String × Nat)) : Nat → String → DfsState → DfsState
  | 0, _, s => s
  | fuel + 1, node, s =>
    finishNode (dfsScan (dfsVisit adj fuel) (adj node) (setColor s node GRAY)) node

/-- The `for aid in artifact_ids: if color[aid] == WHITE: dfs(aid)` loop. -/
def dfsLoop (adj : String → List (String × Nat)) (fuel : Nat) :
    List String → DfsState → DfsState
  | [], s => s
  | aid :: rest, s =>
    if s.color aid = WHITE then dfsLoop adj fuel rest (dfsVisit adj fuel aid s)
    else dfsLoop adj fuel rest s

/-- The DFS state after `remove_cycles`'s traversal of all of
`artifact_ids`, starting from the all-WHITE colouring. -/
def removeCyclesState (connections_data : List Conn) (artifact_ids : List String) : DfsState :=
  dfsLoop (adjOf connections_data artifact_ids) (artifact_ids.length + 1) artifact_ids
    ⟨fun _ => WHITE, [], []⟩

/-- `dag_utils.remove_cycles`: remove the back-edges found by the
three-colour DFS, returning `[c for i, c in enumerate(connections_data)
if i not in back_edges]`. -/
def remove_cycles (connections_data : List Conn) (artifact_ids : List String) : List Conn :=
  ((connections_data.enum.filter fun p =>
      decide (p.1 ∉ (removeCyclesState connections_data artifact_ids).backEdges)).map
    Prod.snd)

/-- The number of ids still WHITE: the measure showing the DFS fuel is
never exhausted. -/
def whiteN (ids : List String) (s : DfsState) : Nat :=
  (ids.filter fun a => decide (s.color a = WHITE)).length

/-- Position of the first occurrence of `x` in `l` (the rank function for
the completion order `finished`). -/
def idxIn : List String → String → Nat
  | [], _ => 0
  | a :: t, x => if a = x then 0 else idxIn t x + 1

/-- The DFS invariant: `finished` lists the BLACK nodes once each in
completion order, every recorded back-edge index comes from the adjacency
map, and every adjacency edge out of a finished node that was not recorded
as a back edge points to a node that finished strictly earlier. -/
structure DfsInv (adj : String → List (String × Nat)) (s : DfsState) : Prop where
  nodup : s.finished.Nodup
  blackIff : ∀ x, s.color x = BLACK ↔ x ∈ s.finished
  colorRange : ∀ x, s.color x = WHITE ∨ s.color x = GRAY ∨ s.color x = BLACK
  backGood : ∀ i ∈ s.backEdges, ∃ u v, (v, i) ∈ adj u
  edges : ∀ u v i, (v, i) ∈ adj u → u ∈ s.finished → i ∉ s.backEdges →
    v ∈ s.finished ∧ idxIn s.finished v < idxIn s.finished u

/-- Monotone evolution of the DFS state: colours only go up, GRAY nodes
stay GRAY, the completion list only grows at its end, back edges are never
forgotten. -/
structure DfsLe (s t : DfsState) : Prop where
  colorLe : ∀ x, s.color x ≤ t.color x
  grayStable : ∀ x, s.color x = GRAY → t.color x = GRAY
  finPre : s.finished <+: t.finished
  backMono : ∀ i, i ∈ s.backEdges → i ∈ t.backEdges

/-- Specification of one `dfs(node)` call at the given fuel: starting from
a WHITE node of the id set with enough fuel, the invariant is preserved,
the state evolves monotonically, the node ends BLACK, and no node is left
newly GRAY. -/
def VisitSpec (adj : String → List (String × Nat)) (ids : List String) (fuel : Nat) : Prop :=
  ∀ node s, node ∈ ids → s.color node = WHITE → whiteN ids s ≤ fuel → DfsInv adj s →
    DfsInv adj (dfsVisit adj fuel node s) ∧ DfsLe s (dfsVisit adj fuel node s) ∧
      (dfsVisit adj fuel node s).color node = BLACK ∧
      ∀ x, (dfsVisit adj fuel node s).color x = GRAY → s.color x = GRAY

/-- Specification of the neighbour scan at the given fuel: additionally,
every scanned edge ends recorded as a back edge or with its target
finished. -/
def ScanSpec (adj : String → List (String × Nat)) (ids : List String) (fuel : Nat) : Prop :=
  ∀ l s, (∀ p ∈ l, p.1 ∈ ids) → (∀ p ∈ l, ∃ u, p ∈ adj u) →
    whiteN ids s ≤ fuel → DfsInv adj s →
    DfsInv adj (dfsScan (dfsVisit adj fuel) l s) ∧
      DfsLe s (dfsScan (dfsVisit adj fuel) l s) ∧
      (∀ x, (dfsScan (dfsVisit adj fuel) l s).color x = GRAY → s.color x = GRAY) ∧
      ∀ p ∈ l, p.2 ∈ (dfsScan (dfsVisit adj fuel) l s).backEdges ∨
        p.1 ∈ (dfsScan (dfsVisit adj fuel) l s).finished

/-- Whether both endpoints of an edge are in the id set (the guard
`if src in id_set and dst in id_set` shared by both functions). -/
def goodConn (ids : List String) (c : Conn) : Bool :=
  decide (c.from_id ∈ ids ∧ c.to_id ∈ ids)

/-- The adjacency map built by `topological_sort_layers`: the targets of
the good edges leaving `src`, in input order. -/
def kadj (connections : List Conn) (ids : List String) (src : String) : List String :=
  ((connections.filter fun c => goodConn ids c && decide (c.from_id = src)).map
    fun c => c.to_id)

/-- The `in_degree` dict after the build loop of `topological_sort_layers`:
the number of good edges entering `x` (0 for everything else). -/
def indegOf (connections : List Conn) (ids : List String) (x : String) : Int :=
  ((connections.filter fun c => goodConn ids c).countP fun c => decide (c.to_id = x) : Nat)

/-- `in_degree[v] -= 1`. -/
def decOne (indeg : String → Int) (v : String) : String → Int :=
  fun y => if y = v then indeg v - 1 else indeg y

/-- The `for neighbor in adj[node]` loop body of Kahn's algorithm: decrement
each neighbour's in-degree, appending the ones that become exactly 0 to the
next queue (in the order they become 0). -/
def stepNbrs : List String → (String → Int) → (String → Int) × List String
  | [], indeg => (indeg, [])
  | v :: vs, indeg =>
    let indeg' := decOne indeg v
    let r := stepNbrs vs indeg'
    (r.1, (if indeg' v = 0 then [v] else []) ++ r.2)

/-- The `for node in layer` loop of Kahn's algorithm. -/
def stepLayer (adj : String → List String) :
    List String → (String → Int) → (String → Int) × List String
  | [], indeg => (indeg, [])
  | node :: rest, indeg =>
    let r1 := stepNbrs (adj node) indeg
    let r2 := stepLayer adj rest r1.1
    (r2.1, r1.2 ++ r2.2)

/-- The `while queue` loop of `topological_sort_layers`, returning the
emitted layers and the final in-degree map.  Fuel bounds the number of
iterations; the caller passes enough that it is never exhausted. -/
def kahnLoop (adj : String → List String) :
    Nat → List String → (String → Int) → List (List String) × (String → Int)
  | _, [], indeg => ([], indeg)
  | 0, _ :: _, indeg => ([], indeg)
  | fuel + 1, x :: xs, indeg =>
    let p := stepLayer adj (x :: xs) indeg
    let r := kahnLoop adj fuel p.2 p.1
    ((x :: xs) :: r.1, r.2)

/-- The total positive in-degree over the (deduplicated) id set: together
with the queue length, the measure showing the Kahn loop's fuel is never
exhausted. -/
def sumPos (ids : List String) (indeg : String → Int) : Nat :=
  (ids.dedup.map fun x => (indeg x).toNat).sum

/-- The main loop of `topological_sort_layers`: build the initial queue from
the zero-in-degree ids (in id order) and run Kahn's algorithm. -/
def kahnRun (artifact_ids : List String) (connections : List Conn) :
    List (List String) × (String → Int) :=
  let indeg := indegOf connections artifact_ids
  kahnLoop (kadj connections artifact_ids)
    (connections.length + artifact_ids.length + 1)
    (artifact_ids.filter fun aid => decide (indeg aid = 0)) indeg

/-- `dag_utils.topological_sort_layers`: Kahn's algorithm by layers; any ids
whose in-degree never reached zero (cycle members) are appended as one final
layer. -/
def topological_sort_layers (artifact_ids : List String) (connections : List Conn) :
    List (List String) :=
  let r := kahnRun artifact_ids connections
  let remaining := artifact_ids.filter fun aid => decide (0 < r.2 aid)
  if remaining.isEmpty then r.1 else r.1 ++ [remaining]

/-! ### Event Bus: `ws/manager.py` (`WSManager.connect`)

Timestamps (`time.time()` floats) are modelled as `Int`: the replay logic
only compares `now - ts < ttl`.  The per-topic buffer is the list
`_event_buffer[project_id]` of `(timestamp, payload)` pairs, in publish
order.  Whether a `send_text` to the new socket succeeds is environmental,
so it is a parameter `sendOk`. -/

/-- An observable action of `WSManager.connect`: a replayed send to the new
socket, or the final `self._connections[project_id].append(websocket)`. -/
inductive WSAction (α : Type) where
  | sent (payload : α)
  | addedConnection
deriving DecidableEq

/-- `WSManager._buffer_ttl` (seconds). -/
def buffer_ttl : Int := 60

/-- The action trace of `WSManager.connect` on one topic: walk the buffered
events; replay each one younger than the TTL; a failed replay returns at
once (no more sends, and the socket is never added to the live list);
otherwise the socket is appended to the live connection list after the
replay loop. -/
def connect {α : Type} (sendOk : α → Bool) (now : Int) :
    List (Int × α) → List (WSAction α)
  | [] => [.addedConnection]
  | (ts, p) :: rest =>
    if now - ts < buffer_ttl then
      if sendOk p then .sent p :: connect sendOk now rest
      else []
    else connect sendOk now rest

/-! ### Sub-task Runner: `agents/research_agent.py` (`ResearchAgent.execute`)

The externally delegated work is
`claude_service.research_angle_with_search(...)`; its outcome (a findings
list, or a raised exception with its message) is the parameter `delegated`.
Findings are opaque (`α`). -/

/-- An event `ResearchAgent.execute` sends through the Event Bus, by type. -/
inductive AEvent (α : Type) where
  | agent_started (agent_id focus_area sub_query : String)
  | agent_thinking (agent_id text : String)
  | artifact_created (finding : α)
  | agent_complete (agent_id : String) (artifact_count : Nat)
  | errorEvent (agent_id message : String)
deriving DecidableEq

/-- Whether an event is terminal for the unit: `agent_complete` ("completed
with a result count") or the `error`-typed event ("failed with an error
summary"). -/
def AEvent.isTerminal {α : Type} : AEvent α → Bool
  | .agent_complete _ _ => true
  | .errorEvent _ _ => true
  | _ => false

/-- `ResearchAgent.execute`: emit `agent_started` and `agent_thinking`, run
the delegated work; on success create one artifact per finding (streaming an
`artifact_created` each) and emit `agent_complete` with the count; on an
exception emit the `error` event naming the unit and return the empty list
(the exception is not re-raised). -/
def ResearchAgent.execute {α : Type} (agent_id angle_name sub_query : String)
    (delegated : Except String (List α)) : List (AEvent α) × List α :=
  let pre : List (AEvent α) :=
    [.agent_started agent_id angle_name sub_query,
     .agent_thinking agent_id ("Searching & analyzing: " ++ sub_query)]
  match delegated with
  | .ok findings =>
    (pre ++ findings.map AEvent.artifact_created
        ++ [.agent_complete agent_id findings.length], findings)
  | .error e =>
    (pre ++ [.errorEvent agent_id ("Agent " ++ angle_name ++ " failed: " ++ e)], [])

/-! ### Synthesis wrapper: `services/claude_service.py` (`synthesize_research`)

The external call returns text that either parses into the synthesis
structure or fails (`json.JSONDecodeError` / `AttributeError`); that
outcome is the parameter.  Only the keys the orchestrator reads are kept. -/

/-- One proposed group from synthesis (`title`, `artifact_ids`; colour and
layout fields play no role in orchestration control flow). -/
structure SynthGroup where
  title : String
  artifact_ids : List String
deriving DecidableEq

/-- The synthesis structure the orchestrator consumes: `groups`,
`connections`, `summary`. -/
structure Synthesis where
  groups : List SynthGroup
  connections : List Conn
  summary : String
deriving DecidableEq

/-- `claude_service.synthesize_research`: return the parsed structure, or on
a parse failure the default
`{"groups": [], "connections": [], "summary": "Research synthesis failed."}`. -/
def synthesize_research (parsed : Except String Synthesis) : Synthesis :=
  match parsed with
  | .ok r => r
  | .error _ => ⟨[], [], "Research synthesis failed."⟩

/-! ### Pipeline Orchestrator: `services/research_service.py` (`run_research`)

Modelled as the trace of events `run_research` itself publishes through the
Event Bus (sub-agents publish their own events inside `agent.execute`, and
the fire-and-forget image task runs after the synchronous portion; neither
belongs to the orchestrator's own trace).  Artifacts are reduced to their
ids — the only field orchestration control flow reads; layout coordinates
computed by `compute_layout` affect no event.  External outcomes
(`asyncio.gather` results, DB save success, plan-direction generation
success) are parameters. -/

/-- An artifact as the orchestrator sees it. -/
structure RArtifact where
  id : String
deriving DecidableEq

/-- One `asyncio.gather(..., return_exceptions=True)` entry: the artifacts
returned by an agent, or the exception it would have raised. -/
def artifactsOfResult : Except String (List RArtifact) → List RArtifact
  | .error _ => []
  | .ok l => l

/-- An event `run_research` itself publishes, by type. -/
inductive REvent where
  | research_directions_planned (n : Nat)
  | research_complete (summary : String) (total_artifacts : Nat)
  | group_created (title : String)
  | connection_created (from_id to_id : String)
  | artifact_created_summary
  | errorEvent (message : String)
  | plan_directions_ready
  | images_generating (total : Nat)
deriving DecidableEq

/-- The event trace of `run_research`: publish the planned directions;
collect the artifacts of the non-exception results; if none, publish
`research_complete` with a zero count and return.  Otherwise: filter the
proposed groups to the non-empty ones (`compute_layout` skips empty
groups), enforce the DAG on the proposed connections, keep the connections
whose endpoints are known artifact ids, insert the summary artifact, report
a DB-save failure as an `error` event (and continue), then publish the
group/connection/summary-artifact events, `research_complete` with the
total count, `plan_directions_ready` when that step succeeds, and
`images_generating`. -/
def run_research (nAngles : Nat) (results : List (Except String (List RArtifact)))
    (synthesis : Synthesis) (dbSaveOk directionsOk : Bool) : List REvent :=
  let planned : List REvent := [.research_directions_planned nAngles]
  let all_artifacts := (results.map artifactsOfResult).flatten
  if all_artifacts.isEmpty then
    planned ++ [.research_complete "No findings were generated." 0]
  else
    let group_objects := synthesis.groups.filter fun g =>
      !(all_artifacts.filter fun a => decide (a.id ∈ g.artifact_ids)).isEmpty
    let artifact_ids := all_artifacts.map fun a => a.id
    let dag_connections := remove_cycles synthesis.connections artifact_ids
    let connections := dag_connections.filter fun c => goodConn artifact_ids c
    let total := all_artifacts.length + 1
    planned
      ++ (if dbSaveOk then [] else [.errorEvent "Failed to save research"])
      ++ group_objects.map (fun g => REvent.group_created g.title)
      ++ connections.map (fun c => REvent.connection_created c.from_id c.to_id)
      ++ [.artifact_created_summary, .research_complete synthesis.summary total]
      ++ (if directionsOk then [.plan_directions_ready] else [])
      ++ [.images_generating total]

/-! ### Directed cycles over an edge list -/

/-- The edge relation of a connection list: `u → v` when some connection
goes from `u` to `v`. -/
def edgeRel (edges : List Conn) (u v : String) : Prop :=
  ∃ c ∈ edges, c.from_id = u ∧ c.to_id = v

/-- The edge relation restricted to endpoints in the node-id set. -/
def edgeRelOn (edges : List Conn) (ids : List String) (u v : String) : Prop :=
  u ∈ ids ∧ v ∈ ids ∧ edgeRel edges u v

/-- A relation is acyclic when no element reaches itself through a
non-empty chain. -/
def Acyclic (R : String → String → Prop) : Prop :=
  ∀ v, ¬ Relation.TransGen R v v

end MVP

namespace MVP

/-! ## Theorems -/

/-- C10: for every input, the edge list returned by `remove_cycles` is a
subsequence of the input edge list — it only ever removes edges, every
returned edge is an unmodified input edge, and the relative order of the
kept edges is preserved. -/
theorem remove_cycles_sublist (connections_data : List Conn) (artifact_ids : List String) :
    (remove_cycles connections_data artifact_ids).Sublist connections_data := by
  have h := (List.filter_sublist (p := fun p : Nat × Conn =>
      decide (p.1 ∉ (removeCyclesState connections_data artifact_ids).backEdges))
    connections_data.enum).map Prod.snd
  rwa [List.enum_map_snd] at h

/-- C4: on nodes `A,B,C,D` (in that iteration order) with candidate edges
`[(A,B),(B,C),(C,A),(C,D)]`, cycle removal removes exactly `(C,A)`,
returning `[(A,B),(B,C),(C,D)]`, and layering those nodes over the returned
edges yields `[[A],[B],[C],[D]]`. -/
theorem remove_cycles_layers_concrete :
    remove_cycles [⟨"A", "B"⟩, ⟨"B", "C"⟩, ⟨"C", "A"⟩, ⟨"C", "D"⟩] ["A", "B", "C", "D"] =
        [⟨"A", "B"⟩, ⟨"B", "C"⟩, ⟨"C", "D"⟩] ∧
      topological_sort_layers ["A", "B", "C", "D"]
          (remove_cycles [⟨"A", "B"⟩, ⟨"B", "C"⟩, ⟨"C", "A"⟩, ⟨"C", "D"⟩] ["A", "B", "C", "D"]) =
        [["A"], ["B"], ["C"], ["D"]] := by
  constructor <;> decide

/-- C5 counterexample: with nodes `A,B` and no edges,
`topological_sort_layers` returns the single layer `[["A","B"]]`, not one
layer per node `[["A"],["B"]]`. -/
theorem topological_sort_layers_no_edges_counterexample :
    topological_sort_layers ["A", "B"] [] = [["A", "B"]] ∧
      topological_sort_layers ["A", "B"] [] ≠ [["A"], ["B"]] := by
  constructor <;> decide

lemma indegOf_nil (ids : List String) (x : String) : indegOf [] ids x = 0 := rfl

lemma stepLayer_of_adj_nil (adj : String → List String) (h : ∀ x, adj x = [])
    (q : List String) (indeg : String → Int) : stepLayer adj q indeg = (indeg, []) := by
  induction q with
  | nil => rfl
  | cons a t ih => simp [stepLayer, h, stepNbrs, ih]

lemma kahnLoop_of_adj_nil (adj : String → List String) (h : ∀ x, adj x = [])
    (fuel : Nat) (q : List String) (hq : q ≠ []) (indeg : String → Int) :
    kahnLoop adj (fuel + 1) q indeg = ([q], indeg) := by
  obtain ⟨a, t, rfl⟩ := List.exists_cons_of_ne_nil hq
  simp [kahnLoop, stepLayer_of_adj_nil adj h]

/-- C5 amended: with a non-empty id list and no edges,
`topological_sort_layers` returns a single layer holding all the node ids in
insertion order (all have in-degree zero, so Kahn's first frontier is the
whole id list). -/
theorem topological_sort_layers_no_edges (ids : List String) (h : ids ≠ []) :
    topological_sort_layers ids [] = [ids] := by
  have hadj : ∀ x, kadj [] ids x = [] := fun _ => rfl
  have hq : ids.filter (fun aid => decide (indegOf [] ids aid = 0)) = ids := by
    apply List.filter_eq_self.mpr
    intro a _
    simp [indegOf_nil]
  have hrem : ids.filter (fun aid => decide (0 < indegOf [] ids aid)) = [] := by
    apply List.filter_eq_nil_iff.mpr
    intro a _
    simp [indegOf_nil]
  simp only [topological_sort_layers, kahnRun, List.length_nil, Nat.zero_add, hq]
  rw [kahnLoop_of_adj_nil _ hadj ids.length ids h]
  simp [hrem]

/-- C5 witness: the amended statement at the concrete id list `["A"]`. -/
theorem topological_sort_layers_no_edges_witness :
    topological_sort_layers ["A"] [] = [["A"]] :=
  topological_sort_layers_no_edges ["A"] (by decide)

/-- C6: on connecting, the new subscriber is sent exactly the buffered
events of its topic younger than the TTL, in original publish order, and
(when those sends succeed) the socket joins the live connection list only
after all of them; a buffer with only expired events replays nothing. -/
theorem connect_replays {α : Type} (sendOk : α → Bool) (now : Int)
    (buffer : List (Int × α))
    (h : ∀ e ∈ buffer, now - e.1 < buffer_ttl → sendOk e.2 = true) :
    connect sendOk now buffer =
      ((buffer.filter fun e => decide (now - e.1 < buffer_ttl)).map fun e =>
          WSAction.sent e.2) ++ [WSAction.addedConnection] := by
  induction buffer with
  | nil => rfl
  | cons e rest ih =>
    obtain ⟨ts, p⟩ := e
    have ihr := ih fun e he hl => h e (List.mem_cons_of_mem _ he) hl
    by_cases hlt : now - ts < buffer_ttl
    · have hs : sendOk p = true := h (ts, p) (List.mem_cons_self _ _) hlt
      simp [connect, hlt, hs, ihr]
    · simp [connect, hlt, ihr]

/-- C6 witness: a subscriber connecting at `t = 30` to a buffer published at
`t = 0` and `t = 10` (TTL 60) replays both events in order before joining;
connecting at `t = 100`, when both are expired, replays none. -/
theorem connect_replays_witness :
    connect (fun _ : String => true) 30 [(0, "e1"), (10, "e2")] =
        [WSAction.sent "e1", WSAction.sent "e2", WSAction.addedConnection] ∧
      connect (fun _ : String => true) 100 [(0, "e1"), (10, "e2")] =
        [WSAction.addedConnection] :=
  ⟨(connect_replays (fun _ => true) 30 [(0, "e1"), (10, "e2")] (by decide)).trans (by decide),
   (connect_replays (fun _ => true) 100 [(0, "e1"), (10, "e2")] (by decide)).trans (by decide)⟩

/-- C7: when every fan-out unit yields zero artifacts, `run_research`
publishes `research_complete` with a zero artifact count and returns, and
its trace carries no `error` event (so the terminal outcome is the
completion event, never an error). -/
theorem run_research_all_failed (nAngles : Nat)
    (results : List (Except String (List RArtifact))) (synthesis : Synthesis)
    (dbSaveOk directionsOk : Bool)
    (h : ∀ r ∈ results, artifactsOfResult r = []) :
    run_research nAngles results synthesis dbSaveOk directionsOk =
        [.research_directions_planned nAngles,
         .research_complete "No findings were generated." 0] ∧
      ∀ msg, REvent.errorEvent msg ∉
        run_research nAngles results synthesis dbSaveOk directionsOk := by
  have hempty : (results.map artifactsOfResult).flatten = [] := by
    rw [List.flatten_eq_nil_iff]
    intro l hl
    obtain ⟨r, hr, rfl⟩ := List.mem_map.mp hl
    exact h r hr
  constructor
  · simp [run_research, hempty]
  · intro msg
    simp [run_research, hempty]

/-- C7 witness: a run whose two units both fail (one raised, one returned
no findings) completes with a zero count. -/
theorem run_research_all_failed_witness :
    run_research 2 [Except.error "boom", Except.ok []] ⟨[], [], ""⟩ true true =
      [.research_directions_planned 2,
       .research_complete "No findings were generated." 0] :=
  (run_research_all_failed 2 [Except.error "boom", Except.ok []] ⟨[], [], ""⟩ true true
    (by decide)).1

/-- C8: when the delegated work of a unit raises, `ResearchAgent.execute`
catches it, emits exactly one terminal event — the `error`-typed event
naming the unit with the failure summary — and returns the empty result
list instead of propagating the exception. -/
theorem execute_delegated_failure {α : Type} (agent_id angle_name sub_query e : String) :
    ResearchAgent.execute (α := α) agent_id angle_name sub_query (.error e) =
        ([.agent_started agent_id angle_name sub_query,
          .agent_thinking agent_id ("Searching & analyzing: " ++ sub_query),
          .errorEvent agent_id ("Agent " ++ angle_name ++ " failed: " ++ e)], []) ∧
      (ResearchAgent.execute (α := α) agent_id angle_name sub_query
          (.error e)).1.countP AEvent.isTerminal = 1 := by
  constructor
  · rfl
  · simp [ResearchAgent.execute, List.countP_cons, AEvent.isTerminal]

/-- C9 counterexample: on a synthesis parse failure the returned summary is
the fixed string "Research synthesis failed.", not the empty string the
claim states. -/
theorem synthesize_research_failure_counterexample :
    synthesize_research (Except.error "unparsable") =
        ⟨[], [], "Research synthesis failed."⟩ ∧
      (synthesize_research (Except.error "unparsable")).summary ≠ "" := by
  constructor
  · rfl
  · decide

/-- C9 amended: a synthesis failure is non-fatal — `synthesize_research`
returns the default structure with no groups, no connections and the fixed
failure-message summary, and the orchestrator still publishes a
`research_complete` event rather than aborting. -/
theorem synthesize_research_failure_default (e : String) (nAngles : Nat)
    (results : List (Except String (List RArtifact))) (dbSaveOk directionsOk : Bool) :
    synthesize_research (.error e) = ⟨[], [], "Research synthesis failed."⟩ ∧
      ∃ s k, REvent.research_complete s k ∈
        run_research nAngles results (synthesize_research (.error e)) dbSaveOk directionsOk := by
  refine ⟨rfl, ?_⟩
  by_cases hempty : ((results.map artifactsOfResult).flatten).isEmpty
  · exact ⟨"No findings were generated.", 0, by simp [run_research, hempty]⟩
  · refine ⟨"Research synthesis failed.",
      (results.map artifactsOfResult).flatten.length + 1, ?_⟩
    simp [run_research, hempty, synthesize_research]

/-- C3 counterexample: an edge whose source id is outside the node set is
retained in the list `remove_cycles` returns, not filtered out. -/
theorem remove_cycles_unknown_id_kept_counterexample :
    (⟨"X", "Y"⟩ : Conn) ∈ remove_cycles [⟨"X", "Y"⟩] [] ∧
      "X" ∉ ([] : List String) := by
  constructor <;> decide

/-- C1 counterexample: a two-cycle between ids outside the node set passes
through `remove_cycles` untouched, so the returned edge list itself contains
a directed cycle. -/
theorem remove_cycles_cycle_outside_ids_counterexample :
    Relation.TransGen (edgeRel (remove_cycles [⟨"X", "Y"⟩, ⟨"Y", "X"⟩] ["A"])) "X" "X" := by
  have h : remove_cycles [⟨"X", "Y"⟩, ⟨"Y", "X"⟩] ["A"] = [⟨"X", "Y"⟩, ⟨"Y", "X"⟩] := by
    decide
  have h1 : edgeRel (remove_cycles [⟨"X", "Y"⟩, ⟨"Y", "X"⟩] ["A"]) "X" "Y" :=
    ⟨⟨"X", "Y"⟩, by rw [h]; exact List.mem_cons_self _ _, rfl, rfl⟩
  have h2 : edgeRel (remove_cycles [⟨"X", "Y"⟩, ⟨"Y", "X"⟩] ["A"]) "Y" "X" :=
    ⟨⟨"Y", "X"⟩, by rw [h]; simp, rfl, rfl⟩
  exact Relation.TransGen.tail (Relation.TransGen.single h1) h2

/-! ### Correctness of the three-colour DFS of `remove_cycles` -/

lemma idxIn_lt_length {x : String} {l : List String} (h : x ∈ l) : idxIn l x < l.length := by
  induction l with
  | nil => cases h
  | cons a t ih =>
    by_cases hax : a = x
    · simp [idxIn, hax]
    · have hx : x ∈ t := by
        rcases List.mem_cons.mp h with h1 | h1
        · exact absurd h1.symm hax
        · exact h1
      simp only [idxIn, if_neg hax, List.length_cons]
      have := ih hx
      omega

lemma idxIn_append_left {x : String} {l m : List String} (h : x ∈ l) :
    idxIn (l ++ m) x = idxIn l x := by
  induction l with
  | nil => cases h
  | cons a t ih =>
    by_cases hax : a = x
    · simp [idxIn, hax]
    · have hx : x ∈ t := by
        rcases List.mem_cons.mp h with h1 | h1
        · exact absurd h1.symm hax
        · exact h1
      simp [idxIn, hax, ih hx]

lemma idxIn_concat_self {x : String} {l : List String} (h : x ∉ l) :
    idxIn (l ++ [x]) x = l.length := by
  induction l with
  | nil => simp [idxIn]
  | cons a t ih =>
    have hax : a ≠ x := fun he => h (he ▸ List.mem_cons_self a t)
    have hx : x ∉ t := fun hm => h (List.mem_cons_of_mem a hm)
    simp [idxIn, hax, ih hx]

lemma whiteN_le_length (ids : List String) (s : DfsState) : whiteN ids s ≤ ids.length :=
  List.length_filter_le _ _

lemma whiteN_mono {ids : List String} {s t : DfsState}
    (h : ∀ x, s.color x ≤ t.color x) : whiteN ids t ≤ whiteN ids s := by
  refine (List.monotone_filter_right ids fun a ha => ?_).length_le
  rw [decide_eq_true_eq] at ha ⊢
  have := h a
  rw [ha] at this
  simpa [WHITE] using Nat.le_zero.mp this

lemma whiteN_pos {ids : List String} {s : DfsState} {x : String}
    (hx : x ∈ ids) (hw : s.color x = WHITE) : 0 < whiteN ids s := by
  have hmem : x ∈ ids.filter fun a => decide (s.color a = WHITE) :=
    List.mem_filter.mpr ⟨hx, by simp [hw]⟩
  exact List.length_pos.mpr (List.ne_nil_of_mem hmem)

lemma filter_ne_length_lt {x : String} {l : List String} (h : x ∈ l) :
    (l.filter fun a => decide (a ≠ x)).length < l.length := by
  induction l with
  | nil => cases h
  | cons a t ih =>
    by_cases hax : a = x
    · subst hax
      have hda : (decide (a ≠ a)) = false := by simp
      have hlen := List.length_filter_le (fun b => decide (b ≠ a)) t
      simp only [List.filter_cons, hda, if_false, Bool.false_eq_true, List.length_cons]
      omega
    · have hx : x ∈ t := by
        rcases List.mem_cons.mp h with h1 | h1
        · exact absurd h1.symm hax
        · exact h1
      have hda : (decide (a ≠ x)) = true := by simp [hax]
      have := ih hx
      simp only [List.filter_cons, hda, if_true, List.length_cons]
      omega

lemma whiteN_setGray_lt {ids : List String} {s : DfsState} {x : String}
    (hx : x ∈ ids) (hw : s.color x = WHITE) :
    whiteN ids (setColor s x GRAY) < whiteN ids s := by
  have hfe : (fun a => decide ((setColor s x GRAY).color a = WHITE)) =
      fun a => decide (a ≠ x) && decide (s.color a = WHITE) := by
    funext a
    by_cases hax : a = x
    · subst hax
      simp [setColor, GRAY, WHITE]
    · simp [setColor, hax]
  have hmem : x ∈ ids.filter fun a => decide (s.color a = WHITE) :=
    List.mem_filter.mpr ⟨hx, by simp [hw]⟩
  calc whiteN ids (setColor s x GRAY)
      = (ids.filter fun a => decide (a ≠ x) && decide (s.color a = WHITE)).length := by
        rw [whiteN, hfe]
    _ = ((ids.filter fun a => decide (s.color a = WHITE)).filter
          fun a => decide (a ≠ x)).length := by
        rw [List.filter_filter]
    _ < (ids.filter fun a => decide (s.color a = WHITE)).length :=
        filter_ne_length_lt hmem
    _ = whiteN ids s := rfl

lemma dfsLe_rfl (s : DfsState) : DfsLe s s :=
  ⟨fun _ => le_refl _, fun _ h => h, List.prefix_refl _, fun _ h => h⟩

lemma dfsLe_trans {s t u : DfsState} (h1 : DfsLe s t) (h2 : DfsLe t u) : DfsLe s u :=
  ⟨fun x => le_trans (h1.colorLe x) (h2.colorLe x),
   fun x hx => h2.grayStable x (h1.grayStable x hx),
   h1.finPre.trans h2.finPre,
   fun i hi => h2.backMono i (h1.backMono i hi)⟩

@[simp] lemma addBackEdge_color (s : DfsState) (i : Nat) :
    (addBackEdge s i).color = s.color := rfl

@[simp] lemma addBackEdge_back (s : DfsState) (i : Nat) :
    (addBackEdge s i).backEdges = s.backEdges ++ [i] := rfl

@[simp] lemma addBackEdge_fin (s : DfsState) (i : Nat) :
    (addBackEdge s i).finished = s.finished := rfl

lemma setColor_color (s : DfsState) (x : String) (c : Nat) (y : String) :
    (setColor s x c).color y = if y = x then c else s.color y := rfl

@[simp] lemma setColor_back (s : DfsState) (x : String) (c : Nat) :
    (setColor s x c).backEdges = s.backEdges := rfl

@[simp] lemma setColor_fin (s : DfsState) (x : String) (c : Nat) :
    (setColor s x c).finished = s.finished := rfl

lemma finishNode_color (s : DfsState) (x y : String) :
    (finishNode s x).color y = if y = x then BLACK else s.color y := rfl

@[simp] lemma finishNode_back (s : DfsState) (x : String) :
    (finishNode s x).backEdges = s.backEdges := rfl

@[simp] lemma finishNode_fin (s : DfsState) (x : String) :
    (finishNode s x).finished = s.finished ++ [x] := rfl

lemma visitSpec_zero (adj : String → List (String × Nat)) (ids : List String) :
    VisitSpec adj ids 0 := by
  intro node s hnode hwhite hfuel _
  have := whiteN_pos hnode hwhite
  omega

lemma scanSpec_of_visit (adj : String → List (String × Nat)) (ids : List String)
    (fuel : Nat) (hv : VisitSpec adj ids fuel) : ScanSpec adj ids fuel := by
  intro l
  induction l with
  | nil =>
    intro s _ _ _ hinv
    exact ⟨hinv, dfsLe_rfl s, fun _ h => h, by simp⟩
  | cons p rest ih =>
    obtain ⟨v, i⟩ := p
    intro s hids hsrc hfuel hinv
    have hidtail : ∀ q ∈ rest, q.1 ∈ ids := fun q hq => hids q (List.mem_cons_of_mem _ hq)
    have hsrctail : ∀ q ∈ rest, ∃ u, q ∈ adj u :=
      fun q hq => hsrc q (List.mem_cons_of_mem _ hq)
    by_cases hg : s.color v = GRAY
    · have heq : dfsScan (dfsVisit adj fuel) ((v, i) :: rest) s =
          dfsScan (dfsVisit adj fuel) rest (addBackEdge s i) := by
        simp [dfsScan, hg]
      have hinvB : DfsInv adj (addBackEdge s i) := by
        refine ⟨hinv.nodup, hinv.blackIff, hinv.colorRange, ?_, ?_⟩
        · intro j hj
          rw [addBackEdge_back] at hj
          rcases List.mem_append.mp hj with hj | hj
          · exact hinv.backGood j hj
          · obtain ⟨u, hu⟩ := hsrc (v, i) (List.mem_cons_self _ _)
            rw [List.mem_singleton.mp hj]
            exact ⟨u, v, hu⟩
        · intro u w j hadj hufin hjnot
          rw [addBackEdge_back] at hjnot
          exact hinv.edges u w j hadj hufin fun hmem => hjnot (List.mem_append_left _ hmem)
      have hwB : whiteN ids (addBackEdge s i) ≤ fuel := hfuel
      obtain ⟨hinv2, hle2, hgray2, hpost2⟩ := ih (addBackEdge s i) hidtail hsrctail hwB hinvB
      rw [heq]
      have hleB : DfsLe s (addBackEdge s i) :=
        ⟨fun _ => le_refl _, fun _ h => h, List.prefix_refl _,
         fun j hj => List.mem_append_left _ hj⟩
      refine ⟨hinv2, dfsLe_trans hleB hle2, fun x hx => hgray2 x hx, ?_⟩
      intro q hq
      rcases List.mem_cons.mp hq with rfl | hq
      · exact Or.inl (hle2.backMono i (by simp))
      · exact hpost2 q hq
    · by_cases hw : s.color v = WHITE
      · have hvmem : v ∈ ids := hids (v, i) (List.mem_cons_self _ _)
        obtain ⟨hinv1, hle1, hblack1, hgray1⟩ := hv v s hvmem hw hfuel hinv
        have heq : dfsScan (dfsVisit adj fuel) ((v, i) :: rest) s =
            dfsScan (dfsVisit adj fuel) rest (dfsVisit adj fuel v s) := by
          simp [dfsScan, hg, hw, WHITE, GRAY]
        have hw1 : whiteN ids (dfsVisit adj fuel v s) ≤ fuel :=
          le_trans (whiteN_mono hle1.colorLe) hfuel
        obtain ⟨hinv2, hle2, hgray2, hpost2⟩ :=
          ih (dfsVisit adj fuel v s) hidtail hsrctail hw1 hinv1
        rw [heq]
        refine ⟨hinv2, dfsLe_trans hle1 hle2, fun x hx => hgray1 x (hgray2 x hx), ?_⟩
        intro q hq
        rcases List.mem_cons.mp hq with rfl | hq
        · refine Or.inr (hle2.finPre.sublist.subset ?_)
          exact (hinv1.blackIff v).mp hblack1
        · exact hpost2 q hq
      · have hb : s.color v = BLACK := by
          rcases hinv.colorRange v with h1 | h1 | h1
          · exact absurd h1 hw
          · exact absurd h1 hg
          · exact h1
        have heq : dfsScan (dfsVisit adj fuel) ((v, i) :: rest) s =
            dfsScan (dfsVisit adj fuel) rest s := by
          simp [dfsScan, hg, hw]
        obtain ⟨hinv2, hle2, hgray2, hpost2⟩ := ih s hidtail hsrctail hfuel hinv
        rw [heq]
        refine ⟨hinv2, hle2, hgray2, ?_⟩
        intro q hq
        rcases List.mem_cons.mp hq with rfl | hq
        · exact Or.inr (hle2.finPre.sublist.subset ((hinv.blackIff v).mp hb))
        · exact hpost2 q hq

lemma visitSpec_succ (adj : String → List (String × Nat)) (ids : List String) (fuel : Nat)
    (hadj : ∀ u, ∀ p ∈ adj u, p.1 ∈ ids) (hs : ScanSpec adj ids fuel) :
    VisitSpec adj ids (fuel + 1) := by
  intro node s hnode hwhite hfuel hinv
  have hnodg : (setColor s node GRAY).color node = GRAY := by
    simp [setColor_color]
  have hinv1 : DfsInv adj (setColor s node GRAY) := by
    refine ⟨hinv.nodup, ?_, ?_, hinv.backGood, ?_⟩
    · intro x
      by_cases hx : x = node
      · subst hx
        refine iff_of_false (by rw [hnodg]; decide) fun hmem => ?_
        have hbl := (hinv.blackIff x).mpr hmem
        rw [hwhite] at hbl
        exact absurd hbl (by decide)
      · rw [show (setColor s node GRAY).color x = s.color x by simp [setColor_color, hx]]
        exact hinv.blackIff x
    · intro x
      by_cases hx : x = node
      · subst hx
        exact Or.inr (Or.inl hnodg)
      · rw [show (setColor s node GRAY).color x = s.color x by simp [setColor_color, hx]]
        exact hinv.colorRange x
    · exact hinv.edges
  have hwlt : whiteN ids (setColor s node GRAY) < whiteN ids s := whiteN_setGray_lt hnode hwhite
  have hw1 : whiteN ids (setColor s node GRAY) ≤ fuel := by omega
  obtain ⟨hinv2, hle2, hgray2, hpost2⟩ := hs (adj node) (setColor s node GRAY)
    (fun p hp => hadj node p hp) (fun p hp => ⟨node, hp⟩) hw1 hinv1
  set s2 := dfsScan (dfsVisit adj fuel) (adj node) (setColor s node GRAY) with hs2def
  have hnodg2 : s2.color node = GRAY := hle2.grayStable node hnodg
  have hnotfin2 : node ∉ s2.finished := fun hmem => by
    have hbl := (hinv2.blackIff node).mpr hmem
    rw [hnodg2] at hbl
    exact absurd hbl (by decide)
  show DfsInv adj (finishNode s2 node) ∧ DfsLe s (finishNode s2 node) ∧
      (finishNode s2 node).color node = BLACK ∧
      ∀ x, (finishNode s2 node).color x = GRAY → s.color x = GRAY
  refine ⟨?_, ?_, ?_, ?_⟩
  · refine ⟨?_, ?_, ?_, ?_, ?_⟩
    · rw [finishNode_fin]
      exact List.nodup_append.mpr ⟨hinv2.nodup, List.nodup_singleton _,
        fun a ha hb => hnotfin2 (List.mem_singleton.mp hb ▸ ha)⟩
    · intro x
      by_cases hx : x = node
      · subst hx
        rw [finishNode_fin]
        refine iff_of_true (by rw [finishNode_color]; simp) ?_
        exact List.mem_append_right _ (List.mem_singleton.mpr rfl)
      · rw [finishNode_fin, show (finishNode s2 node).color x = s2.color x by
          rw [finishNode_color, if_neg hx]]
        constructor
        · intro hb
          exact List.mem_append_left _ ((hinv2.blackIff x).mp hb)
        · intro hmem
          rcases List.mem_append.mp hmem with hmem | hmem
          · exact (hinv2.blackIff x).mpr hmem
          · exact absurd (List.mem_singleton.mp hmem) hx
    · intro x
      by_cases hx : x = node
      · subst hx
        rw [finishNode_color, if_pos rfl]
        exact Or.inr (Or.inr rfl)
      · rw [finishNode_color, if_neg hx]
        exact hinv2.colorRange x
    · rw [finishNode_back]
      exact hinv2.backGood
    · intro u w j hadjm hufin hjnot
      rw [finishNode_fin] at hufin ⊢
      rw [finishNode_back] at hjnot
      rcases List.mem_append.mp hufin with hu2 | hu2
      · obtain ⟨hwfin, hidx⟩ := hinv2.edges u w j hadjm hu2 hjnot
        refine ⟨List.mem_append_left _ hwfin, ?_⟩
        rw [idxIn_append_left hwfin, idxIn_append_left hu2]
        exact hidx
      · have hu2 := List.mem_singleton.mp hu2
        subst hu2
        have hw2 : w ∈ s2.finished := by
          rcases hpost2 (w, j) hadjm with h | h
          · exact absurd h hjnot
          · exact h
        refine ⟨List.mem_append_left _ hw2, ?_⟩
        rw [idxIn_append_left hw2, idxIn_concat_self hnotfin2]
        exact idxIn_lt_length hw2
  · refine ⟨?_, ?_, ?_, ?_⟩
    · intro x
      by_cases hx : x = node
      · subst hx
        rw [finishNode_color, if_pos rfl, hwhite]
        decide
      · rw [finishNode_color, if_neg hx]
        have h1 : s.color x ≤ (setColor s node GRAY).color x := by
          simp [setColor_color, hx]
        exact le_trans h1 (hle2.colorLe x)
    · intro x hx
      have hxn : x ≠ node := fun he => by
        rw [he, hwhite] at hx
        exact absurd hx (by decide)
      rw [finishNode_color, if_neg hxn]
      have h1 : (setColor s node GRAY).color x = GRAY := by
        rw [setColor_color, if_neg hxn]
        exact hx
      exact hle2.grayStable x h1
    · rw [finishNode_fin]
      exact (hle2.finPre.trans (List.prefix_append _ _) :)
    · intro j hj
      rw [finishNode_back]
      exact hle2.backMono j hj
  · rw [finishNode_color, if_pos rfl]
  · intro x hx
    by_cases hxn : x = node
    · subst hxn
      rw [finishNode_color, if_pos rfl] at hx
      exact absurd hx (by decide)
    · rw [finishNode_color, if_neg hxn] at hx
      have h1 := hgray2 x hx
      rw [setColor_color, if_neg hxn] at h1
      exact h1

lemma visitSpec_all (adj : String → List (String × Nat)) (ids : List String)
    (hadj : ∀ u, ∀ p ∈ adj u, p.1 ∈ ids) : ∀ fuel, VisitSpec adj ids fuel := by
  intro fuel
  induction fuel with
  | zero => exact visitSpec_zero adj ids
  | succ n ih => exact visitSpec_succ adj ids n hadj (scanSpec_of_visit adj ids n ih)

lemma dfsLoop_spec (adj : String → List (String × Nat)) (ids : List String) (fuel : Nat)
    (hadj : ∀ u, ∀ p ∈ adj u, p.1 ∈ ids) (hfuel : ids.length < fuel) :
    ∀ l s, (∀ a ∈ l, a ∈ ids) → (∀ x, s.color x ≠ GRAY) → DfsInv adj s →
      DfsInv adj (dfsLoop adj fuel l s) ∧
        (∀ x, s.color x ≤ (dfsLoop adj fuel l s).color x) ∧
        (∀ x, (dfsLoop adj fuel l s).color x ≠ GRAY) ∧
        ∀ a ∈ l, (dfsLoop adj fuel l s).color a = BLACK := by
  intro l
  induction l with
  | nil =>
    intro s _ hng hinv
    exact ⟨hinv, fun _ => le_refl _, hng, by simp⟩
  | cons a t ih =>
    intro s hl hng hinv
    by_cases hw : s.color a = WHITE
    · obtain ⟨hinv1, hle1, hblack1, hgray1⟩ :=
        visitSpec_all adj ids hadj fuel a s (hl a (List.mem_cons_self _ _)) hw
          (le_of_lt (lt_of_le_of_lt (whiteN_le_length ids s) hfuel)) hinv
      have hng1 : ∀ x, (dfsVisit adj fuel a s).color x ≠ GRAY :=
        fun x hx => hng x (hgray1 x hx)
      have heq : dfsLoop adj fuel (a :: t) s = dfsLoop adj fuel t (dfsVisit adj fuel a s) := by
        simp [dfsLoop, hw]
      obtain ⟨hinv2, hle2, hng2, hblack2⟩ :=
        ih (dfsVisit adj fuel a s) (fun b hb => hl b (List.mem_cons_of_mem _ hb)) hng1 hinv1
      rw [heq]
      refine ⟨hinv2, fun x => le_trans (hle1.colorLe x) (hle2 x), hng2, ?_⟩
      intro b hb
      rcases List.mem_cons.mp hb with rfl | hb
      · have h2 : BLACK ≤ (dfsLoop adj fuel t (dfsVisit adj fuel b s)).color b :=
          hblack1 ▸ hle2 b
        rcases hinv2.colorRange b with h | h | h
        · rw [h] at h2; exact absurd h2 (by decide)
        · rw [h] at h2; exact absurd h2 (by decide)
        · exact h
      · exact hblack2 b hb
    · have hbl : s.color a = BLACK := by
        rcases hinv.colorRange a with h | h | h
        · exact absurd h hw
        · exact absurd h (hng a)
        · exact h
      have heq : dfsLoop adj fuel (a :: t) s = dfsLoop adj fuel t s := by
        simp [dfsLoop, hw]
      obtain ⟨hinv2, hle2, hng2, hblack2⟩ :=
        ih s (fun b hb => hl b (List.mem_cons_of_mem _ hb)) hng hinv
      rw [heq]
      refine ⟨hinv2, hle2, hng2, ?_⟩
      intro b hb
      rcases List.mem_cons.mp hb with rfl | hb
      · have h2 : BLACK ≤ (dfsLoop adj fuel t s).color b := hbl ▸ hle2 b
        rcases hinv2.colorRange b with h | h | h
        · rw [h] at h2; exact absurd h2 (by decide)
        · rw [h] at h2; exact absurd h2 (by decide)
        · exact h
      · exact hblack2 b hb

lemma mem_adjOf {conns : List Conn} {ids : List String} {u v : String} {i : Nat} :
    (v, i) ∈ adjOf conns ids u ↔
      ∃ c, conns[i]? = some c ∧ c.from_id = u ∧ c.to_id = v ∧ u ∈ ids ∧ v ∈ ids := by
  constructor
  · intro h
    simp only [adjOf, List.mem_map, List.mem_filter] at h
    obtain ⟨⟨j, c⟩, ⟨hmem, hprop⟩, heq⟩ := h
    rw [decide_eq_true_eq] at hprop
    obtain ⟨hfrom, hfid, htid⟩ := hprop
    injection heq with h1 h2
    subst h2
    exact ⟨c, List.mem_enum_iff_getElem?.mp hmem, hfrom, h1, hfrom ▸ hfid, h1 ▸ htid⟩
  · rintro ⟨c, hget, hfrom, hto, hu, hv⟩
    simp only [adjOf, List.mem_map, List.mem_filter]
    refine ⟨(i, c), ⟨List.mem_enum_iff_getElem?.mpr hget, ?_⟩, by rw [hto]⟩
    rw [decide_eq_true_eq]
    exact ⟨hfrom, hfrom ▸ hu, hto ▸ hv⟩

lemma adjOf_targets (conns : List Conn) (ids : List String) :
    ∀ u, ∀ p ∈ adjOf conns ids u, p.1 ∈ ids := by
  intro u p hp
  obtain ⟨v, i⟩ := p
  exact (mem_adjOf.mp hp).choose_spec.2.2.2.2

lemma removeCyclesState_spec (conns : List Conn) (ids : List String) :
    DfsInv (adjOf conns ids) (removeCyclesState conns ids) ∧
      ∀ a ∈ ids, (removeCyclesState conns ids).color a = BLACK := by
  have base : DfsInv (adjOf conns ids) ⟨fun _ => WHITE, [], []⟩ := by
    refine ⟨List.nodup_nil, ?_, fun x => Or.inl rfl, by simp, by simp⟩
    intro x
    exact iff_of_false (fun h => absurd (show WHITE = BLACK from h) (by decide)) (by simp)
  obtain ⟨hinv, _, _, hblack⟩ :=
    dfsLoop_spec (adjOf conns ids) ids (ids.length + 1) (adjOf_targets conns ids)
      (Nat.lt_succ_self _) ids ⟨fun _ => WHITE, [], []⟩ (fun a ha => ha)
      (fun x h => absurd (show WHITE = GRAY from h) (by decide)) base
  exact ⟨hinv, hblack⟩

/-- C3 amended: `remove_cycles` never removes an edge referencing an id
outside the node set — such edges are excluded only from cycle detection
(never marked as back edges) and are retained in the returned list. -/
theorem remove_cycles_keeps_unknown_id_edges (conns : List Conn) (ids : List String)
    (c : Conn) (hc : c ∈ conns) (hbad : c.from_id ∉ ids ∨ c.to_id ∉ ids) :
    c ∈ remove_cycles conns ids := by
  obtain ⟨i, hi⟩ := List.mem_iff_getElem?.mp hc
  have hnotback : i ∉ (removeCyclesState conns ids).backEdges := by
    intro hib
    obtain ⟨u, v, hadj⟩ := (removeCyclesState_spec conns ids).1.backGood i hib
    obtain ⟨c', hget, hfrom, hto, hu, hv⟩ := mem_adjOf.mp hadj
    rw [hi] at hget
    injection hget with hcc
    subst hcc
    rcases hbad with hbad | hbad
    · rw [hfrom] at hbad
      exact hbad hu
    · rw [hto] at hbad
      exact hbad hv
  simp only [remove_cycles, List.mem_map, List.mem_filter]
  exact ⟨(i, c), ⟨List.mem_enum_iff_getElem?.mpr hi, by simpa using hnotback⟩, rfl⟩

/-- C3 witness: the amended statement at a concrete input — an edge with an
unknown source id survives `remove_cycles`. -/
theorem remove_cycles_keeps_unknown_id_edges_witness :
    (⟨"P", "Q"⟩ : Conn) ∈ remove_cycles [⟨"P", "Q"⟩] ["A"] :=
  remove_cycles_keeps_unknown_id_edges [⟨"P", "Q"⟩] ["A"] ⟨"P", "Q"⟩ (by decide)
    (Or.inl (by decide))

/-- C1 amended: restricted to edges whose two endpoints are both in the
node-id set, the edge list returned by `remove_cycles` contains no directed
cycle (kept in-set edges always point to an earlier-finished node of the
DFS, so a cycle would descend an order infinitely). -/
theorem remove_cycles_acyclic (conns : List Conn) (ids : List String) :
    Acyclic (edgeRelOn (remove_cycles conns ids) ids) := by
  unfold Acyclic
  intro w hw
  have hstep : ∀ u v, edgeRelOn (remove_cycles conns ids) ids u v →
      idxIn (removeCyclesState conns ids).finished v <
        idxIn (removeCyclesState conns ids).finished u := by
    rintro u v ⟨hu, hv, c, hc, hfrom, hto⟩
    simp only [remove_cycles, List.mem_map, List.mem_filter] at hc
    obtain ⟨⟨i, c'⟩, ⟨hmem, hkeep⟩, heq⟩ := hc
    have hcc : c' = c := heq
    subst hcc
    have hadj : (v, i) ∈ adjOf conns ids u :=
      mem_adjOf.mpr ⟨c', List.mem_enum_iff_getElem?.mp hmem, hfrom, hto, hu, hv⟩
    have hufin : u ∈ (removeCyclesState conns ids).finished :=
      ((removeCyclesState_spec conns ids).1.blackIff u).mp
        ((removeCyclesState_spec conns ids).2 u hu)
    have hkeep' : i ∉ (removeCyclesState conns ids).backEdges := by simpa using hkeep
    exact ((removeCyclesState_spec conns ids).1.edges u v i hadj hufin hkeep').2
  have hlt : ∀ a b, Relation.TransGen (edgeRelOn (remove_cycles conns ids) ids) a b →
      idxIn (removeCyclesState conns ids).finished b <
        idxIn (removeCyclesState conns ids).finished a := by
    intro a b h
    induction h with
    | single h => exact hstep _ _ h
    | tail _ h2 ih => exact lt_trans (hstep _ _ h2) ih
  exact absurd (hlt w w hw) (lt_irrefl _)

/-! ### Correctness of the Kahn layering of `topological_sort_layers` -/

lemma decOne_le (indeg : String → Int) (v x : String) : decOne indeg v x ≤ indeg x := by
  by_cases h : x = v
  · subst h
    simp only [decOne, if_pos rfl]
    omega
  · simp [decOne, h]

lemma decOne_ne (indeg : String → Int) (v x : String) (h : x ≠ v) :
    decOne indeg v x = indeg x := by
  simp [decOne, h]

lemma stepNbrs_fst_le : ∀ (l : List String) (indeg : String → Int) (x : String),
    (stepNbrs l indeg).1 x ≤ indeg x := by
  intro l
  induction l with
  | nil => intro indeg x; simp [stepNbrs]
  | cons v vs ih =>
    intro indeg x
    simp only [stepNbrs]
    exact le_trans (ih (decOne indeg v) x) (decOne_le indeg v x)

lemma stepNbrs_snd_mem : ∀ (l : List String) (indeg : String → Int) (x : String),
    x ∈ (stepNbrs l indeg).2 → 1 ≤ indeg x ∧ (stepNbrs l indeg).1 x ≤ 0 := by
  intro l
  induction l with
  | nil => intro indeg x h; simp [stepNbrs] at h
  | cons v vs ih =>
    intro indeg x h
    simp only [stepNbrs] at h ⊢
    rcases List.mem_append.mp h with h1 | h1
    · by_cases h0 : decOne indeg v v = 0
      · rw [if_pos h0] at h1
        have hx := List.mem_singleton.mp h1
        subst hx
        have hd : decOne indeg x x = indeg x - 1 := by simp [decOne]
        rw [hd] at h0
        refine ⟨by omega, ?_⟩
        have hle := stepNbrs_fst_le vs (decOne indeg x) x
        rw [hd] at hle
        omega
      · rw [if_neg h0] at h1
        cases h1
    · obtain ⟨ha, hb⟩ := ih (decOne indeg v) x h1
      exact ⟨le_trans ha (decOne_le indeg v x), hb⟩

lemma stepNbrs_snd_crossing : ∀ (l : List String) (indeg : String → Int) (x : String),
    1 ≤ indeg x → (stepNbrs l indeg).1 x ≤ 0 → x ∈ (stepNbrs l indeg).2 := by
  intro l
  induction l with
  | nil =>
    intro indeg x h1 h2
    simp only [stepNbrs] at h2
    omega
  | cons v vs ih =>
    intro indeg x h1 h2
    simp only [stepNbrs] at h2 ⊢
    by_cases hxv : x = v
    · subst hxv
      have hd : decOne indeg x x = indeg x - 1 := by simp [decOne]
      by_cases h0 : decOne indeg x x = 0
      · exact List.mem_append_left _ (by rw [if_pos h0]; exact List.mem_singleton.mpr rfl)
      · rw [hd] at h0
        refine List.mem_append_right _ (ih (decOne indeg x) x ?_ h2)
        rw [hd]
        omega
    · have heq : decOne indeg v x = indeg x := decOne_ne indeg v x hxv
      exact List.mem_append_right _ (ih (decOne indeg v) x (by rw [heq]; exact h1) h2)

lemma stepLayer_fst_le (adj : String → List String) :
    ∀ (q : List String) (indeg : String → Int) (x : String),
      (stepLayer adj q indeg).1 x ≤ indeg x := by
  intro q
  induction q with
  | nil => intro indeg x; simp [stepLayer]
  | cons node rest ih =>
    intro indeg x
    simp only [stepLayer]
    exact le_trans (ih (stepNbrs (adj node) indeg).1 x) (stepNbrs_fst_le (adj node) indeg x)

lemma stepLayer_snd_mem (adj : String → List String) :
    ∀ (q : List String) (indeg : String → Int) (x : String),
      x ∈ (stepLayer adj q indeg).2 → 1 ≤ indeg x ∧ (stepLayer adj q indeg).1 x ≤ 0 := by
  intro q
  induction q with
  | nil => intro indeg x h; simp [stepLayer] at h
  | cons node rest ih =>
    intro indeg x h
    simp only [stepLayer] at h ⊢
    rcases List.mem_append.mp h with h1 | h1
    · obtain ⟨ha, hb⟩ := stepNbrs_snd_mem (adj node) indeg x h1
      refine ⟨ha, ?_⟩
      exact le_trans (stepLayer_fst_le adj rest (stepNbrs (adj node) indeg).1 x) hb
    · obtain ⟨ha, hb⟩ := ih (stepNbrs (adj node) indeg).1 x h1
      exact ⟨le_trans ha (stepNbrs_fst_le (adj node) indeg x), hb⟩

lemma stepLayer_snd_crossing (adj : String → List String) :
    ∀ (q : List String) (indeg : String → Int) (x : String),
      1 ≤ indeg x → (stepLayer adj q indeg).1 x ≤ 0 → x ∈ (stepLayer adj q indeg).2 := by
  intro q
  induction q with
  | nil =>
    intro indeg x h1 h2
    simp only [stepLayer] at h2
    omega
  | cons node rest ih =>
    intro indeg x h1 h2
    simp only [stepLayer] at h2 ⊢
    by_cases hmid : (stepNbrs (adj node) indeg).1 x ≤ 0
    · exact List.mem_append_left _ (stepNbrs_snd_crossing (adj node) indeg x h1 hmid)
    · refine List.mem_append_right _ (ih (stepNbrs (adj node) indeg).1 x (by omega) h2)

lemma sum_toNat_le {l : List String} {f g : String → Int} (h : ∀ x ∈ l, f x ≤ g x) :
    (l.map fun x => (f x).toNat).sum ≤ (l.map fun x => (g x).toNat).sum := by
  induction l with
  | nil => simp
  | cons a t ih =>
    simp only [List.map_cons, List.sum_cons]
    have h1 := Int.toNat_le_toNat (h a (List.mem_cons_self _ _))
    have h2 := ih fun x hx => h x (List.mem_cons_of_mem _ hx)
    omega

lemma sumPos_mono {ids : List String} {f g : String → Int} (h : ∀ x, f x ≤ g x) :
    sumPos ids f ≤ sumPos ids g :=
  sum_toNat_le fun x _ => h x

lemma sum_toNat_update_crossing {l : List String} (hl : l.Nodup) {v : String} (hv : v ∈ l)
    {f g : String → Int} (hoff : ∀ x, x ≠ v → g x = f x)
    (hat : (g v).toNat + 1 = (f v).toNat) :
    (l.map fun x => (g x).toNat).sum + 1 = (l.map fun x => (f x).toNat).sum := by
  induction l with
  | nil => cases hv
  | cons a t ih =>
    simp only [List.map_cons, List.sum_cons]
    rcases List.mem_cons.mp hv with rfl | hvt
    · have hnt : v ∉ t := (List.nodup_cons.mp hl).1
      have heq : (t.map fun x => (g x).toNat) = t.map fun x => (f x).toNat :=
        List.map_congr_left fun x hx => by rw [hoff x fun he => hnt (he ▸ hx)]
      rw [heq]
      omega
    · have hna : a ≠ v := fun he => (List.nodup_cons.mp hl).1 (he ▸ hvt)
      rw [hoff a hna]
      have := ih (List.nodup_cons.mp hl).2 hvt
      omega

lemma sumPos_decOne_le (ids : List String) (indeg : String → Int) (v : String) :
    sumPos ids (decOne indeg v) ≤ sumPos ids indeg :=
  sumPos_mono fun x => decOne_le indeg v x

lemma sumPos_decOne_crossing (ids : List String) (indeg : String → Int) (v : String)
    (hv : v ∈ ids) (h1 : indeg v = 1) :
    sumPos ids (decOne indeg v) + 1 = sumPos ids indeg := by
  refine sum_toNat_update_crossing (List.nodup_dedup ids) (List.mem_dedup.mpr hv)
    (fun x hx => decOne_ne indeg v x hx) ?_
  have hd : decOne indeg v v = 0 := by simp [decOne, h1]
  rw [hd, h1]
  rfl

lemma stepNbrs_pot (ids : List String) : ∀ (l : List String) (indeg : String → Int),
    (∀ v ∈ l, v ∈ ids) →
    sumPos ids (stepNbrs l indeg).1 + (stepNbrs l indeg).2.length ≤ sumPos ids indeg := by
  intro l
  induction l with
  | nil => intro indeg _; simp [stepNbrs]
  | cons v vs ih =>
    intro indeg hmem
    simp only [stepNbrs, List.length_append]
    have hrec := ih (decOne indeg v) fun w hw => hmem w (List.mem_cons_of_mem _ hw)
    by_cases h0 : decOne indeg v v = 0
    · rw [if_pos h0]
      have hd : decOne indeg v v = indeg v - 1 := by simp [decOne]
      rw [hd] at h0
      have hv1 : indeg v = 1 := by omega
      have hcross := sumPos_decOne_crossing ids indeg v (hmem v (List.mem_cons_self _ _)) hv1
      simp only [List.length_singleton]
      omega
    · rw [if_neg h0]
      have hle := sumPos_decOne_le ids indeg v
      simp only [List.length_nil]
      omega

lemma stepLayer_pot (adj : String → List String) (ids : List String)
    (hadj : ∀ u, ∀ v ∈ adj u, v ∈ ids) :
    ∀ (q : List String) (indeg : String → Int),
      sumPos ids (stepLayer adj q indeg).1 + (stepLayer adj q indeg).2.length ≤
        sumPos ids indeg := by
  intro q
  induction q with
  | nil => intro indeg; simp [stepLayer]
  | cons node rest ih =>
    intro indeg
    simp only [stepLayer, List.length_append]
    have h1 := stepNbrs_pot ids (adj node) indeg fun v hv => hadj node v hv
    have h2 := ih (stepNbrs (adj node) indeg).1
    omega

lemma sum_indicator_le_one {l : List String} (hl : l.Nodup) (t : String) :
    (l.map fun x => if t = x then 1 else 0).sum ≤ 1 := by
  induction l with
  | nil => simp
  | cons a rest ih =>
    simp only [List.map_cons, List.sum_cons]
    by_cases ht : t = a
    · subst ht
      have hnt : t ∉ rest := (List.nodup_cons.mp hl).1
      have hz : (rest.map fun x => if t = x then 1 else 0).sum = 0 := by
        apply List.sum_eq_zero
        intro y hy
        obtain ⟨x, hx, rfl⟩ := List.mem_map.mp hy
        rw [if_neg fun he : t = x => hnt (he.symm ▸ hx)]
      rw [if_pos rfl, hz]
    · rw [if_neg ht]
      have := ih (List.nodup_cons.mp hl).2
      omega

lemma count_to_sum_le (L : List Conn) : ∀ (l : List String), l.Nodup →
    (l.map fun x => L.countP fun c => decide (c.to_id = x)).sum ≤ L.length := by
  induction L with
  | nil => intro l _; simp
  | cons c rest ih =>
    intro l hl
    have hsplit : (fun x => List.countP (fun c' => decide (c'.to_id = x)) (c :: rest)) =
        fun x => (List.countP (fun c' => decide (c'.to_id = x)) rest) +
          (if c.to_id = x then 1 else 0) := by
      funext x
      rw [List.countP_cons]
      by_cases h : c.to_id = x <;> simp [h]
    rw [hsplit, List.sum_map_add]
    have h1 := ih l hl
    have h2 := sum_indicator_le_one hl c.to_id
    simp only [List.length_cons]
    omega

lemma sumPos_indegOf_le (conns : List Conn) (ids : List String) :
    sumPos ids (indegOf conns ids) ≤ conns.length := by
  have heq : sumPos ids (indegOf conns ids) =
      (ids.dedup.map fun x =>
        (conns.filter fun c => goodConn ids c).countP fun c => decide (c.to_id = x)).sum := by
    unfold sumPos indegOf
    exact congrArg List.sum (List.map_congr_left fun x _ => Int.toNat_natCast _)
  rw [heq]
  exact le_trans (count_to_sum_le _ ids.dedup (List.nodup_dedup ids))
    (List.length_filter_le _ _)

lemma kadj_targets (conns : List Conn) (ids : List String) :
    ∀ u, ∀ v ∈ kadj conns ids u, v ∈ ids := by
  intro u v hv
  simp only [kadj, List.mem_map, List.mem_filter] at hv
  obtain ⟨c, ⟨_, hprop⟩, rfl⟩ := hv
  rw [Bool.and_eq_true] at hprop
  have hg := hprop.1
  unfold goodConn at hg
  rw [decide_eq_true_eq] at hg
  exact hg.2

lemma indegOf_nonneg (conns : List Conn) (ids : List String) (x : String) :
    0 ≤ indegOf conns ids x :=
  Int.natCast_nonneg _

lemma kahnLoop_nil (adj : String → List String) (fuel : Nat) (indeg : String → Int) :
    kahnLoop adj fuel [] indeg = ([], indeg) := by
  cases fuel <;> rfl

lemma kahnLoop_cons (adj : String → List String) (n : Nat) (a : String) (t : List String)
    (indeg : String → Int) :
    kahnLoop adj (n + 1) (a :: t) indeg =
      ((a :: t) ::
          (kahnLoop adj n (stepLayer adj (a :: t) indeg).2 (stepLayer adj (a :: t) indeg).1).1,
        (kahnLoop adj n (stepLayer adj (a :: t) indeg).2 (stepLayer adj (a :: t) indeg).1).2) :=
  rfl

lemma kahnLoop_partition (adj : String → List String) (ids : List String)
    (hadj : ∀ u, ∀ v ∈ adj u, v ∈ ids) (x : String) :
    ∀ (fuel : Nat) (q : List String) (indeg : String → Int),
      sumPos ids indeg + q.length ≤ fuel →
      (x ∈ q → indeg x ≤ 0) →
      ((x ∈ q →
          ((kahnLoop adj fuel q indeg).1.countP fun L => decide (x ∈ L)) = 1 ∧
            (kahnLoop adj fuel q indeg).2 x ≤ 0) ∧
        (x ∉ q → indeg x ≤ 0 →
          ((kahnLoop adj fuel q indeg).1.countP fun L => decide (x ∈ L)) = 0 ∧
            (kahnLoop adj fuel q indeg).2 x ≤ 0) ∧
        (x ∉ q → 1 ≤ indeg x →
          (((kahnLoop adj fuel q indeg).1.countP fun L => decide (x ∈ L)) = 1 ∧
              (kahnLoop adj fuel q indeg).2 x ≤ 0) ∨
            (((kahnLoop adj fuel q indeg).1.countP fun L => decide (x ∈ L)) = 0 ∧
              1 ≤ (kahnLoop adj fuel q indeg).2 x))) := by
  intro fuel
  induction fuel with
  | zero =>
    intro q indeg hfuel hq1
    have hq : q = [] := List.length_eq_zero.mp (by omega)
    subst hq
    rw [kahnLoop_nil]
    exact ⟨fun hx => absurd hx (List.not_mem_nil x), fun _ hle => ⟨by simp, hle⟩,
      fun _ hge => Or.inr ⟨by simp, hge⟩⟩
  | succ n ihn =>
    intro q indeg hfuel hq1
    cases q with
    | nil =>
      rw [kahnLoop_nil]
      exact ⟨fun hx => absurd hx (List.not_mem_nil x), fun _ hle => ⟨by simp, hle⟩,
        fun _ hge => Or.inr ⟨by simp, hge⟩⟩
    | cons a t =>
      have hpot := stepLayer_pot adj ids hadj (a :: t) indeg
      have hfuel' : sumPos ids (stepLayer adj (a :: t) indeg).1 +
          (stepLayer adj (a :: t) indeg).2.length ≤ n := by
        have hlen : (a :: t).length = t.length + 1 := rfl
        omega
      have hq1' : x ∈ (stepLayer adj (a :: t) indeg).2 →
          (stepLayer adj (a :: t) indeg).1 x ≤ 0 :=
        fun hxm => (stepLayer_snd_mem adj (a :: t) indeg x hxm).2
      have ih := ihn (stepLayer adj (a :: t) indeg).2 (stepLayer adj (a :: t) indeg).1
        hfuel' hq1'
      rw [kahnLoop_cons]
      refine ⟨?_, ?_, ?_⟩
      · intro hx
        have hxnot2 : x ∉ (stepLayer adj (a :: t) indeg).2 := fun hmem => by
          have h1 := (stepLayer_snd_mem adj (a :: t) indeg x hmem).1
          have h2 := hq1 hx
          omega
        have hple : (stepLayer adj (a :: t) indeg).1 x ≤ 0 :=
          le_trans (stepLayer_fst_le adj (a :: t) indeg x) (hq1 hx)
        obtain ⟨hcnt, hfin⟩ := ih.2.1 hxnot2 hple
        refine ⟨?_, hfin⟩
        simp [List.countP_cons, hcnt, hx]
      · intro hx hle
        have hxnot2 : x ∉ (stepLayer adj (a :: t) indeg).2 := fun hmem => by
          have h1 := (stepLayer_snd_mem adj (a :: t) indeg x hmem).1
          omega
        have hple : (stepLayer adj (a :: t) indeg).1 x ≤ 0 :=
          le_trans (stepLayer_fst_le adj (a :: t) indeg x) hle
        obtain ⟨hcnt, hfin⟩ := ih.2.1 hxnot2 hple
        refine ⟨?_, hfin⟩
        simp [List.countP_cons, hcnt, hx]
      · intro hx hge
        by_cases hx2 : x ∈ (stepLayer adj (a :: t) indeg).2
        · obtain ⟨hcnt, hfin⟩ := ih.1 hx2
          left
          refine ⟨?_, hfin⟩
          simp [List.countP_cons, hcnt, hx]
        · by_cases hpos : 1 ≤ (stepLayer adj (a :: t) indeg).1 x
          · rcases ih.2.2 hx2 hpos with ⟨hcnt, hfin⟩ | ⟨hcnt, hfin⟩
            · left
              refine ⟨?_, hfin⟩
              simp [List.countP_cons, hcnt, hx]
            · right
              refine ⟨?_, hfin⟩
              simp [List.countP_cons, hcnt, hx]
          · exact absurd (stepLayer_snd_crossing adj (a :: t) indeg x hge (by omega)) hx2

lemma topological_sort_layers_eq (ids : List String) (conns : List Conn) :
    topological_sort_layers ids conns =
      if (ids.filter fun aid => decide (0 < (kahnRun ids conns).2 aid)).isEmpty
      then (kahnRun ids conns).1
      else (kahnRun ids conns).1 ++
        [ids.filter fun aid => decide (0 < (kahnRun ids conns).2 aid)] :=
  rfl

/-- C2: for every list of node ids and every connection list, the layering
returned by `topological_sort_layers` is a complete partition of the input
node ids — every input node id appears in exactly one layer, and a node
whose in-degree never reached zero is appended in the final layer rather
than dropped. -/
theorem topological_sort_layers_partition (artifact_ids : List String)
    (connections : List Conn) (x : String) (hx : x ∈ artifact_ids) :
    ((topological_sort_layers artifact_ids connections).countP fun L => decide (x ∈ L)) = 1 ∧
      (0 < (kahnRun artifact_ids connections).2 x →
        x ∈ (topological_sort_layers artifact_ids connections).getLastD []) := by
  have hrun : kahnRun artifact_ids connections =
      kahnLoop (kadj connections artifact_ids)
        (connections.length + artifact_ids.length + 1)
        (artifact_ids.filter fun aid => decide (indegOf connections artifact_ids aid = 0))
        (indegOf connections artifact_ids) := rfl
  have hmeasure : sumPos artifact_ids (indegOf connections artifact_ids) +
      (artifact_ids.filter fun aid =>
        decide (indegOf connections artifact_ids aid = 0)).length ≤
      connections.length + artifact_ids.length + 1 := by
    have h1 := sumPos_indegOf_le connections artifact_ids
    have h2 := List.length_filter_le
      (fun aid => decide (indegOf connections artifact_ids aid = 0)) artifact_ids
    omega
  have hq1 : x ∈ (artifact_ids.filter fun aid =>
      decide (indegOf connections artifact_ids aid = 0)) →
      indegOf connections artifact_ids x ≤ 0 := by
    intro hmem
    have hd := (List.mem_filter.mp hmem).2
    rw [decide_eq_true_eq] at hd
    omega
  have hmain := kahnLoop_partition (kadj connections artifact_ids) artifact_ids
    (kadj_targets connections artifact_ids) x
    (connections.length + artifact_ids.length + 1)
    (artifact_ids.filter fun aid => decide (indegOf connections artifact_ids aid = 0))
    (indegOf connections artifact_ids) hmeasure hq1
  rw [← hrun] at hmain
  rw [topological_sort_layers_eq]
  by_cases h0 : indegOf connections artifact_ids x = 0
  · have hxq : x ∈ artifact_ids.filter fun aid =>
        decide (indegOf connections artifact_ids aid = 0) :=
      List.mem_filter.mpr ⟨hx, decide_eq_true h0⟩
    obtain ⟨hcnt, hfin⟩ := hmain.1 hxq
    have hnotrem : x ∉ artifact_ids.filter fun aid =>
        decide (0 < (kahnRun artifact_ids connections).2 aid) := fun hmem => by
      have hd := (List.mem_filter.mp hmem).2
      rw [decide_eq_true_eq] at hd
      omega
    refine ⟨?_, fun hpos => absurd hpos (by omega)⟩
    by_cases hrem : (artifact_ids.filter fun aid =>
        decide (0 < (kahnRun artifact_ids connections).2 aid)).isEmpty
    · rw [if_pos hrem]
      exact hcnt
    · rw [if_neg hrem, List.countP_append, hcnt]
      simp [hnotrem]
  · have hge : 1 ≤ indegOf connections artifact_ids x := by
      have := indegOf_nonneg connections artifact_ids x
      omega
    have hxq : x ∉ artifact_ids.filter fun aid =>
        decide (indegOf connections artifact_ids aid = 0) := fun hmem => by
      have hd := (List.mem_filter.mp hmem).2
      rw [decide_eq_true_eq] at hd
      exact h0 hd
    rcases hmain.2.2 hxq hge with ⟨hcnt, hfin⟩ | ⟨hcnt, hfin⟩
    · have hnotrem : x ∉ artifact_ids.filter fun aid =>
          decide (0 < (kahnRun artifact_ids connections).2 aid) := fun hmem => by
        have hd := (List.mem_filter.mp hmem).2
        rw [decide_eq_true_eq] at hd
        omega
      refine ⟨?_, fun hpos => absurd hpos (by omega)⟩
      by_cases hrem : (artifact_ids.filter fun aid =>
          decide (0 < (kahnRun artifact_ids connections).2 aid)).isEmpty
      · rw [if_pos hrem]
        exact hcnt
      · rw [if_neg hrem, List.countP_append, hcnt]
        simp [hnotrem]
    · have hrem_mem : x ∈ artifact_ids.filter fun aid =>
          decide (0 < (kahnRun artifact_ids connections).2 aid) :=
        List.mem_filter.mpr ⟨hx, decide_eq_true (by omega)⟩
      have hremne : ¬ (artifact_ids.filter fun aid =>
          decide (0 < (kahnRun artifact_ids connections).2 aid)).isEmpty := fun h =>
        List.ne_nil_of_mem hrem_mem (List.isEmpty_iff.mp h)
      refine ⟨?_, fun _ => ?_⟩
      · rw [if_neg hremne, List.countP_append, hcnt]
        simp [hrem_mem]
      · rw [if_neg hremne, List.getLastD_concat]
        exact hrem_mem

/-- C2 witness: the partition statement at the concrete id list `["A"]`
with no connections. -/
theorem topological_sort_layers_partition_witness :
    ((topological_sort_layers ["A"] []).countP fun L => decide ("A" ∈ L)) = 1 ∧
      (0 < (kahnRun ["A"] []).2 "A" →
        "A" ∈ (topological_sort_layers ["A"] []).getLastD []) :=
  topological_sort_layers_partition ["A"] [] "A" (by decide)

end MVP
